import Mathlib

/-!
Verification of the content-scanning core of the tailwindcss oxide crate
(`crates/oxide/src/scanner/mod.rs` and `crates/oxide/src/scanner/detect_sources.rs`).

The development shallowly embeds the scanner's data model and operations:

* paths are base-relative lists of components (`Path`), `[]` being the base
  directory that a `Scanner` walks;
* the filesystem seen by the glob resolver is a tree of named files and
  directories (`FSEntry`);
* the filesystem seen by the mtime change detector is a tree of modification
  times (`MTree`), with times as naturals;
* the candidate extractor, the per-language pre-processors and the final glob
  pattern optimizer are external collaborators of this core and are modelled
  abstractly (as parameters, or as the identity), as stated at each definition.

Every executable definition mirrors the corresponding Rust item; section
comments name the Rust source lines being embedded.
-/

namespace TailwindOxide

/-- Base-relative filesystem path: `[]` is the base directory itself. -/
abbrev Path := List String

/-- Set-style insertion into a list (models `FxHashSet::insert`). -/
def insertP (p : Path) (l : List Path) : List Path :=
  if p ∈ l then l else p :: l

/-- Set-style removal from a list (models `FxHashSet::remove`). -/
def removeP (p : Path) (l : List Path) : List Path :=
  l.filter (fun q => q ≠ p)

/-- Slice `xs[i .. i+n]` of a list, as used to model Rust byte-slice indexing. -/
def sliceL {α : Type} (i n : Nat) (xs : List α) : List α :=
  (xs.drop i).take n

/-! ## Candidate extraction with positions (`Scanner::get_candidates_with_positions`,
`mod.rs` lines 212-251).

The Rust code replaces every occurrence of the legacy substring `-[]` by the
same-length placeholder `XYZ`, hands the replaced text to the (external)
extractor, and for each extracted slice restores the original substring at the
reported offset whenever that original substring still contains `-[]`.
The extractor itself lives in `crate::extractor` and is modelled abstractly:
theorems quantify over the list of `(offset, length)` spans it returns. -/

/-- The legacy pattern `-[]` that `get_candidates_with_positions` replaces. -/
def legacyPat : List Char := ['-', '[', ']']

/-- Embedding of `content.replace("-[]", "XYZ")`: left-to-right, non-overlapping
replacement of `-[]` by the same-length placeholder `XYZ`. -/
def replaceLegacy : List Char → List Char
  | '-' :: '[' :: ']' :: rest => 'X' :: 'Y' :: 'Z' :: replaceLegacy rest
  | c :: rest => c :: replaceLegacy rest
  | [] => []

/-- The pattern `-[]` occurs in `xs` at index `k`. -/
def OccursAt (xs : List Char) (k : Nat) : Prop :=
  sliceL k 3 xs = legacyPat

instance (xs : List Char) (k : Nat) : Decidable (OccursAt xs k) := by
  unfold OccursAt; infer_instance

/-- Embedding of `bstr::contains_str("-[]")` on a byte slice. -/
def containsLegacy : List Char → Bool
  | '-' :: '[' :: ']' :: _ => true
  | _ :: rest => containsLegacy rest
  | [] => false

/-- Token reported for the extracted span `[i, i+n)`: the slice of the replaced
content, except that the original slice is restored when it still contains the
legacy pattern (`mod.rs` lines 232-246). -/
def restoreToken (content : List Char) (i n : Nat) : List Char :=
  let processed := replaceLegacy content
  let s := sliceL i n processed
  let original := sliceL i n content
  if containsLegacy original then original else s

/-- Embedding of `get_candidates_with_positions`, with the external extractor's
output passed in as the list of `(offset, length)` spans it produced on the
replaced content. -/
def getCandidatesWithPositions (content : List Char) (spans : List (Nat × Nat)) :
    List (List Char × Nat) :=
  spans.map (fun sp => (restoreToken content sp.1 sp.2, sp.1))

/-! ## Change detector (`changed_time_since`, `mod.rs` lines 498-523).

The filesystem is a tree of modification times; `read_dir` order is the order
of the `children` list. The embedding is error-free (each `?` in the Rust
source propagates an I/O error; I/O errors at the granularity of a whole call
are modelled in the walker filter below). -/

/-- A filesystem subtree carrying modification times. -/
inductive MTree where
  | file (mtime : Nat)
  | dir (mtime : Nat) (children : List MTree)

/-- Modification time of the root of a subtree (`metadata().modified()`). -/
def rootMtime : MTree → Nat
  | .file m => m
  | .dir m _ => m

mutual

/-- Embedding of `changed_time_since(path, since)`. On a directory whose own
mtime does not exceed `since`, iterate the children with the directory's mtime
as the running maximum. -/
def changedTimeSince : MTree → Nat → Nat
  | .file m, _ => m
  | .dir m cs, since =>
    if since < m then m
    else ctsLoop cs m since

/-- The `for entry in fs::read_dir(path)?` loop of `changed_time_since`:
recurse into subdirectories keeping the running maximum, return the first
file child whose mtime exceeds `since` immediately. -/
def ctsLoop : List MTree → Nat → Nat → Nat
  | [], latest, _ => latest
  | .dir m cs :: rest, latest, since =>
    let t := changedTimeSince (.dir m cs) since
    ctsLoop rest (if latest < t then t else latest) since
  | .file fm :: rest, latest, since =>
    if since < fm then fm else ctsLoop rest latest since

end

/-- First file child whose mtime exceeds `since` (specification-side view of
the early return in `changed_time_since`). -/
def firstQualFile : List MTree → Nat → Option Nat
  | [], _ => none
  | .dir _ _ :: rest, since => firstQualFile rest since
  | .file fm :: rest, since =>
    if since < fm then some fm else firstQualFile rest since

mutual

/-- Specification-side reformulation of the change detector, written from the
spec's description (section 4.4): return the directory's own mtime when it
exceeds the threshold, otherwise the first file child whose mtime exceeds the
threshold, and otherwise the maximum of the directory's mtime and the
subdirectory recursion results. -/
def ctsSpec : MTree → Nat → Nat
  | .file m, _ => m
  | .dir m cs, since =>
    if since < m then m
    else
      match firstQualFile cs since with
      | some fm => fm
      | none => max m (maxDirSpec cs since)

/-- Maximum over the recursive results of the subdirectory children
(specification-side view of the running maximum in `changed_time_since`). -/
def maxDirSpec : List MTree → Nat → Nat
  | [], _ => 0
  | .dir m cs :: rest, since =>
    max (ctsSpec (.dir m cs) since) (maxDirSpec rest since)
  | .file _ :: rest, since => maxDirSpec rest since

end

/-! ## The walker's mtime change filter (`create_walker`'s `filter_entry`
closure, `mod.rs` lines 451-493).

The mtime map is a function `Path → Option Nat`; `now` models
`SystemTime::now()`; an entry whose `node` is `none` models an entry for which
every metadata access fails. -/

/-- A directory entry as seen by the `filter_entry` closure. -/
structure WalkEntry where
  path : Path
  /-- Result of `entry.path().is_dir()`. -/
  isDir : Bool
  /-- The subtree rooted at the entry; `none` models an I/O error on any
  metadata access for this entry. -/
  node : Option MTree

/-- The mtime map guarded by the mutex in `create_walker`. -/
abbrev MtimeMap := Path → Option Nat

/-- The `current_time` computed by the filter closure: for a directory already
in the map, the change detector's effective mtime with the recorded value as
threshold; otherwise the entry's own modification time; the current wall-clock
`now` on any I/O error. -/
def filterCurrentTime (m : MtimeMap) (e : WalkEntry) (now : Nat) : Nat :=
  match m e.path, e.isDir with
  | some t, true =>
    match e.node with
    | some tree => changedTimeSince tree t
    | none => now
  | _, _ =>
    match e.node with
    | some tree => rootMtime tree
    | none => now

/-- The boolean the filter closure returns: admit on first sighting, and
afterwards exactly when the computed time differs from the recorded one. -/
def filterAdmits (m : MtimeMap) (e : WalkEntry) (now : Nat) : Bool :=
  match m e.path with
  | some prev => decide (prev ≠ filterCurrentTime m e now)
  | none => true

/-- The mtime map after the closure ran (`mtimes.insert(path, current_time)`). -/
def filterUpdate (m : MtimeMap) (e : WalkEntry) (now : Nat) : MtimeMap :=
  fun q => if q = e.path then some (filterCurrentTime m e now) else m q

/-! ## Git-repository detection (`create_walker`, `mod.rs` lines 375-423).

`create_walker` starts from `require_git(false)` and switches to
`require_git(true)` exactly when some ancestor of the first root (the root
itself included) contains a `.git` entry. The filesystem is abstracted by the
predicate `gitAt p`, modelling `p.join(".git").exists()`. Here paths are
absolute: `[]` is the filesystem root, so `Path::ancestors` yields the path
itself followed by every shorter prefix down to `[]`. -/

/-- Embedding of `first_root.ancestors()`: the path itself, then each parent
up to the filesystem root — i.e. every prefix of the path, longest first. -/
def pathAncestors (p : Path) : List Path :=
  (List.range (p.length + 1)).reverse.map (fun k => p.take k)

/-- Embedding of the `require_git` configuration loop of `create_walker`. -/
def requireGit (firstRoot : Path) (gitAt : Path → Bool) : Bool :=
  (pathAncestors firstRoot).any gitAt

/-! ## Candidate accumulator (`Scanner::scan` and `Scanner::scan_content`,
`mod.rs` lines 107-147).

`parse_all_blobs` reduces the extractor's output on the changed content to a
set of candidate strings; that set is the `extracted` parameter below. The
accumulator `candidates` is the `FxHashSet<String>` field of `Scanner`. Rust's
`sort_unstable` on `String` is byte-lexicographic, which on UTF-8 agrees with
the character-wise order used by `Finset.sort` here. -/

/-- Embedding of `Scanner::scan_content`: keep only candidates not already in
the accumulator, return them sorted, and extend the accumulator with them. -/
def scanContentFn (acc : Finset String) (extracted : Finset String) :
    List String × Finset String :=
  ((extracted \ acc).sort (· ≤ ·), acc ∪ (extracted \ acc))

/-- Embedding of `Scanner::scan`: run `scan_content` on the changed content,
then return the sorted snapshot of the full accumulator. -/
def scanFn (acc : Finset String) (extracted : Finset String) :
    List String × Finset String :=
  let s := scanContentFn acc extracted
  ((s.2).sort (· ≤ ·), s.2)

/-- One orchestrator invocation, for reasoning about call sequences. -/
inductive ScanOp where
  | scanCall (extracted : Finset String)
  | scanContentCall (extracted : Finset String)

/-- Effect of one invocation on the candidate accumulator. -/
def applyScanOp (acc : Finset String) : ScanOp → Finset String
  | .scanCall e => (scanFn acc e).2
  | .scanContentCall e => (scanContentFn acc e).2

/-- Effect of a sequence of invocations on the candidate accumulator. -/
def applyScanOps (acc : Finset String) (ops : List ScanOp) : Finset String :=
  ops.foldl applyScanOp acc

/-! ## Source walking (`Scanner::scan_sources`, `mod.rs` lines 150-176) and
pre-processor dispatch (`pre_process_input`, `mod.rs` lines 270-285). -/

/-- Split a character list at every occurrence of a separator character. -/
def splitOnChar (sep : Char) : List Char → List (List Char)
  | [] => [[]]
  | c :: rest =>
    if c = sep then [] :: splitOnChar sep rest
    else
      match splitOnChar sep rest with
      | [] => [[c]]
      | h :: t => (c :: h) :: t

/-- Embedding of Rust's `Path::extension().and_then(to_str).unwrap_or_default()`
on a file name: the part after the last dot, except that a name with no dot, or
a leading-dot name with no further dot, yields the empty string. -/
def fileExtension (name : String) : String :=
  match splitOnChar '.' name.data with
  | [] => ""
  | [_] => ""
  | [] :: [_] => ""
  | parts => String.mk (parts.getLastD [])

/-- Last path component (`Path::file_name`), `""` for the base itself. -/
def lastComponent (p : Path) : String :=
  p.getLastD ""

/-- An entry yielded by the `ignore` walker, as consumed by `scan_sources`:
`meta` is `none` when `path.metadata()` fails (the entry is skipped),
`some true` for a directory and `some false` for a file. -/
structure WalkItem where
  path : Path
  meta : Option Bool

/-- State of the `Scanner` fields mutated by `scan_sources`. -/
structure ScanState where
  files : List Path
  dirs : List Path
  changedContent : List (Path × String)
deriving DecidableEq

/-- One iteration of the `scan_sources` loop. -/
def scanSourcesStep (st : ScanState) (it : WalkItem) : ScanState :=
  match it.meta with
  | none => st
  | some true => { st with dirs := st.dirs ++ [it.path] }
  | some false =>
    { st with
      files := st.files ++ [it.path]
      changedContent :=
        st.changedContent ++ [(it.path, fileExtension (lastComponent it.path))] }

/-- Embedding of `Scanner::scan_sources` over the walker's entries. -/
def scanSources (st : ScanState) (items : List WalkItem) : ScanState :=
  items.foldl scanSourcesStep st

/-- The external per-language pre-processors (`crate::extractor::pre_processors`),
modelled as opaque byte transformers supplied by the environment. -/
structure PreProcessors where
  clojure : List Nat → List Nat
  razor : List Nat → List Nat
  haml : List Nat → List Nat
  json : List Nat → List Nat
  pug : List Nat → List Nat
  ruby : List Nat → List Nat
  slim : List Nat → List Nat
  svelte : List Nat → List Nat
  vue : List Nat → List Nat

/-- Embedding of `pre_process_input`: dispatch on the file extension, passing
unmatched extensions through unchanged. -/
def preProcessInput (pp : PreProcessors) (content : List Nat) (extension : String) :
    List Nat :=
  if extension = "clj" ∨ extension = "cljs" ∨ extension = "cljc" then pp.clojure content
  else if extension = "cshtml" ∨ extension = "razor" then pp.razor content
  else if extension = "haml" then pp.haml content
  else if extension = "json" then pp.json content
  else if extension = "pug" then pp.pug content
  else if extension = "rb" ∨ extension = "erb" then pp.ruby content
  else if extension = "slim" then pp.slim content
  else if extension = "svelte" then pp.svelte content
  else if extension = "vue" then pp.vue content
  else content

/-! ## Glob resolver (`detect_sources.rs`).

`GlobResolver::resolve` walks the base directory with `WalkDir`, children
sorted directories-first and then by name, maintaining four mutable sets:
`forced_static_directories` (a `Vec`, so pushes may duplicate),
`root_directories`, `deep_globable_directories` and
`shallow_globable_directories`. Paths are base-relative here, `[]` being the
base; `entry.path().parent()` of the base is therefore `none`, matching the
resolver's use where the base is always in the walker's visited set. -/

/-- A filesystem subtree as seen by `WalkDir`: named files and directories. -/
inductive FSEntry where
  | file (name : String)
  | dir (name : String) (children : List FSEntry)

/-- Name of an entry (`DirEntry::file_name`). -/
def entryName : FSEntry → String
  | .file n => n
  | .dir n _ => n

/-- Whether an entry is a directory (`DirEntry::file_type().is_dir()`). -/
def entryIsDir : FSEntry → Bool
  | .file _ => false
  | .dir _ _ => true

/-- Children of an entry (`fs::read_dir`). -/
def childrenOf : FSEntry → List FSEntry
  | .file _ => []
  | .dir _ cs => cs

/-- Byte-lexicographic comparison of names, as `OsStr::cmp` performs it
(identical to character-wise comparison for these names). -/
def charListLE : List Char → List Char → Bool
  | [], _ => true
  | _ :: _, [] => false
  | a :: as, b :: bs => if a = b then charListLE as bs else decide (a < b)

/-- The comparator `sort_by_dir_and_name`: directories before files, then by
name. -/
def entryLE (a b : FSEntry) : Bool :=
  match entryIsDir a, entryIsDir b with
  | true, false => true
  | false, true => false
  | _, _ => charListLE (entryName a).data (entryName b).data

/-- Insert an entry into an already sorted list of entries (stable, as
`sort_by` is). -/
def insertEntry (c : FSEntry) : List FSEntry → List FSEntry
  | [] => [c]
  | d :: rest => if entryLE c d then c :: d :: rest else d :: insertEntry c rest

/-- Children in the order `WalkDir.sort_by(sort_by_dir_and_name)` yields them:
a stable sort by the comparator. -/
def sortChildren (cs : List FSEntry) : List FSEntry :=
  cs.foldr insertEntry []

/-- Look up the subtree at a base-relative path (used for the re-scan that the
demotion step performs with a fresh `WalkDir` on the parent directory; a
missing path makes that fresh walker yield only an error, i.e. nothing). -/
def findDir : Path → FSEntry → Option FSEntry
  | [], e => some e
  | _ :: _, .file _ => none
  | n :: rest, .dir _ cs =>
    match cs.find? (fun c => entryName c == n) with
    | none => none
    | some c => findDir rest c

/-- Mutable state of `GlobResolver` during `resolve`. -/
structure RState where
  forcedStatic : List Path
  rootDirectories : List Path
  deep : List Path
  shallow : List Path
deriving DecidableEq

/-- Embedding of `GlobResolver::new`: forced-static starts at `<base>/public`, the root
directories at the base itself, and both globability sets empty. -/
def initRState : RState :=
  { forcedStatic := [["public"]]
    rootDirectories := [[]]
    deep := []
    shallow := [] }

/-- Strict ancestors of a path, nearest first, ending with the base `[]`
(the successive `entry.path().parent()` values of the demotion loop): the
proper prefixes of the path, longest first. -/
def strictAncestors (p : Path) : List Path :=
  (List.range p.length).reverse.map (fun k => p.take k)

/-- The re-scan loop inside the demotion step (`detect_sources.rs` lines
137-163): iterate the sorted children of the demoted parent, skipping files,
stopping at the ignored entry itself, and promoting every directory child seen
before that to deep-globable (clearing it from shallow-globable). -/
def promoteLoop (st : RState) (parentPath entryPath : Path) :
    List FSEntry → RState
  | [] => st
  | c :: rest =>
    if entryIsDir c then
      let cp := parentPath ++ [entryName c]
      if cp = entryPath then st
      else
        promoteLoop
          { st with deep := insertP cp st.deep, shallow := removeP cp st.shallow }
          parentPath entryPath rest
    else promoteLoop st parentPath entryPath rest

/-- The fresh shallow `WalkDir` re-scan on a demoted parent directory. -/
def rescanPromote (root : FSEntry) (st : RState) (parentPath entryPath : Path) :
    RState :=
  match findDir parentPath root with
  | none => st
  | some e => promoteLoop st parentPath entryPath (sortChildren (childrenOf e))

/-- The upward demotion loop (`detect_sources.rs` lines 125-178) over the
chain of ancestors of the ignored entry: demote the first deep-globable
ancestor to shallow-globable and re-scan its children, stop at the base, and
mark intermediate ancestors shallow-globable. -/
def demoteChain (root : FSEntry) (entryPath : Path) :
    RState → List Path → RState
  | st, [] => st
  | st, p :: rest =>
    if p ∈ st.deep then
      rescanPromote root
        { st with deep := removeP p st.deep, shallow := insertP p st.shallow }
        p entryPath
    else if p = [] then st
    else demoteChain root entryPath { st with shallow := insertP p st.shallow } rest

/-- Demotion triggered by an ignored directory (`!self.allowed_paths.contains`). -/
def demote (root : FSEntry) (st : RState) (entryPath : Path) : RState :=
  demoteChain root entryPath st (strictAncestors entryPath)

/-- The parent-scan of the promotion step (`detect_sources.rs` lines 187-203):
stop at the base without a find, stop successfully at a deep-globable
ancestor. -/
def hasDeepAncestor (deepSet : List Path) : List Path → Bool
  | [] => false
  | p :: rest =>
    if p = [] then false
    else if p ∈ deepSet then true
    else hasDeepAncestor deepSet rest

/-- Promotion of a non-ignored directory to deep-globable when no ancestor is
already deep-globable and the directory is not the base itself. -/
def promote (st : RState) (path : Path) : RState :=
  if !hasDeepAncestor st.deep (strictAncestors path) ∧ path ≠ [] then
    { st with deep := insertP path st.deep }
  else st

/-- Whether `entry.path().parent()` exists and is a forced-static directory. -/
def parentForced (st : RState) (path : Path) : Bool :=
  match path with
  | [] => false
  | p@(_ :: _) => decide (p.dropLast ∈ st.forcedStatic)

/-- Processing of one directory entry of the main `resolve` loop
(`detect_sources.rs` lines 80-211). Returns the new state and whether the
walk descends into the directory (`false` models `skip_current_dir`). -/
def processDir (root : FSEntry) (allowed : List Path) (st : RState)
    (path : Path) (name : String) : RState × Bool :=
  if name = ".git" then (st, false)
  else if path ∈ st.forcedStatic then
    ({ st with
        forcedStatic := path :: st.forcedStatic
        rootDirectories := insertP path st.rootDirectories }, true)
  else if parentForced st path then
    ({ st with
        forcedStatic := path :: st.forcedStatic
        rootDirectories := insertP path st.rootDirectories }, true)
  else if path ∉ allowed then (demote root st path, false)
  else (promote st path, true)

/-- The main `resolve` loop as a depth-first worklist: pop the next entry,
process it, and descend into its sorted children unless it was skipped. The
fuel argument only bounds the recursion; `resolveState` supplies enough fuel
for the walk to complete. -/
def walkLoop (root : FSEntry) (allowed : List Path) :
    Nat → RState → List (Path × FSEntry) → RState
  | 0, st, _ => st
  | _ + 1, st, [] => st
  | fuel + 1, st, (_, .file _) :: rest => walkLoop root allowed fuel st rest
  | fuel + 1, st, (p, .dir name cs) :: rest =>
    let pr := processDir root allowed st p name
    if pr.2 then
      walkLoop root allowed fuel pr.1
        (((sortChildren cs).map (fun c => (p ++ [entryName c], c))) ++ rest)
    else walkLoop root allowed fuel pr.1 rest

mutual

/-- Total number of entries of a subtree, used to provision fuel. -/
def entryCount : FSEntry → Nat
  | .file _ => 1
  | .dir _ cs => 1 + entryCountList cs

/-- Total number of entries of a forest. -/
def entryCountList : List FSEntry → Nat
  | [] => 0
  | c :: rest => entryCount c + entryCountList rest

end

/-- Final `GlobResolver` state after the `resolve` walk over the whole base. -/
def resolveState (root : FSEntry) (allowed : List Path) : RState :=
  walkLoop root allowed (entryCount root + 1) initRState [([], root)]

/-- The three pattern shapes the scanner emits: `*` (pushed by `get_globs` at
each auto base), `*/*.{…}` and `**/*.{…}` (built by `resolve` from the
extension list). -/
inductive GlobPattern where
  | star
  | shallowP (ext : String)
  | deepP (ext : String)
deriving DecidableEq

/-- A `(base, pattern)` glob entry. -/
structure GlobEntry where
  base : Path
  pattern : GlobPattern
deriving DecidableEq

/-- The pattern string exactly as the Rust `format!` calls build it. -/
def renderPattern : GlobPattern → String
  | .star => "*"
  | .shallowP e => "*/*." ++ "\x7b" ++ e ++ "\x7d"
  | .deepP e => "**/*." ++ "\x7b" ++ e ++ "\x7d"

/-- Modelled from the spec: the known-extension fixture
`fixtures/template-extensions.txt` is not part of the sources under
verification; the list below is the one the repository's own scanner tests
(`tests/scanner.rs`) assert for every emitted glob. -/
def knownExtensions : List String :=
  ["aspx", "astro", "cjs", "cts", "eex", "erb", "gjs", "gts", "haml",
   "handlebars", "hbs", "heex", "html", "jade", "js", "jsx", "liquid", "md",
   "mdx", "mjs", "mts", "mustache", "njk", "nunjucks", "php", "pug", "py",
   "razor", "rb", "rhtml", "rs", "slim", "svelte", "tpl", "ts", "tsx", "twig",
   "vue"]

/-- Insert a string into an already sorted list of strings (stable, as
`Vec::sort` is), by byte-lexicographic order as Rust's `String` order is. -/
def insertStr (s : String) : List String → List String
  | [] => [s]
  | d :: rest => if charListLE s.data d.data then s :: d :: rest else d :: insertStr s rest

/-- Stable sort of a list of strings. -/
def sortStrings (l : List String) : List String :=
  l.foldr insertStr []

/-- The comma-joined, alphabetically sorted extension list used in every deep
and shallow pattern (`detect_sources.rs` lines 226-234): `found_extensions`
starts as the known-extension set and — the recording block being commented
out — never changes. -/
def extensionList : String :=
  String.intercalate "," (sortStrings knownExtensions.dedup)

/-- Glob emission at the end of `resolve` (`detect_sources.rs` lines 236-250):
one shallow entry per shallow-globable directory, then one deep entry per
deep-globable directory. -/
def resolveGlobs (root : FSEntry) (allowed : List Path) : List GlobEntry :=
  let st := resolveState root allowed
  st.shallow.map (fun p => { base := p, pattern := GlobPattern.shallowP extensionList })
    ++ st.deep.map (fun p => { base := p, pattern := GlobPattern.deepP extensionList })

/-- Modelled from the spec: the external pattern optimizer that `get_globs`
finally applies (`crate::glob::optimize_patterns`) is out of scope (section 1
of the spec, "pattern-level micro-optimization of the final glob list");
it is modelled as the identity. -/
def optimizePatterns (globs : List GlobEntry) : List GlobEntry :=
  globs

/-- Embedding of `Scanner::get_globs` for one `Auto` base: a `*` entry at the
base followed by the resolver's globs, passed through the optimizer. -/
def getGlobs (root : FSEntry) (allowed : List Path) : List GlobEntry :=
  optimizePatterns ({ base := [], pattern := GlobPattern.star } :: resolveGlobs root allowed)

/-- Modelled from the spec: glob matching is performed by the external watcher
(glossary: a deep glob matches files at any depth under its base, a shallow
glob matches files exactly one directory below its base, and `*` matches the
direct children of its base); a file matches the brace list when its name ends
in a dot followed by one of the listed extensions. -/
def extMatches (name : String) (ext : String) : Bool :=
  (splitOnChar ',' ext.data).any (fun e => List.isSuffixOf ('.' :: e) name.data)

/-- Modelled from the spec: whether a glob entry matches a base-relative file
path. -/
def matchesEntry (g : GlobEntry) (f : Path) : Bool :=
  match g.pattern with
  | .star => g.base.isPrefixOf f && decide (f.length = g.base.length + 1)
  | .shallowP ext =>
    g.base.isPrefixOf f && decide (f.length = g.base.length + 2)
      && extMatches (lastComponent f) ext
  | .deepP ext =>
    g.base.isPrefixOf f && decide (g.base.length + 1 ≤ f.length)
      && extMatches (lastComponent f) ext

/-! ## Invariants of the resolver walk. -/

/-- State invariant of the `resolve` walk: deep- and shallow-globable
directories are proper descendants of the base outside the `public` subtree,
every forced-static directory lies in the `public` subtree, and
`<base>/public` itself is always forced-static. -/
def StateOK (st : RState) : Prop :=
  (∀ p ∈ st.deep, p ≠ [] ∧ p.head? ≠ some "public")
  ∧ (∀ p ∈ st.shallow, p ≠ [] ∧ p.head? ≠ some "public")
  ∧ (∀ p ∈ st.forcedStatic, p.head? = some "public")
  ∧ ["public"] ∈ st.forcedStatic

/-- Worklist invariant of the `resolve` walk: any pending entry strictly
inside the `public` subtree is already forced-static or has a forced-static
parent. -/
def StackOK (st : RState) (stack : List (Path × FSEntry)) : Prop :=
  ∀ pe ∈ stack, pe.1.head? = some "public" → 2 ≤ pe.1.length →
    pe.1 ∈ st.forcedStatic ∨ pe.1.dropLast ∈ st.forcedStatic

/-! ## Concrete scenarios.

These mirror layouts from the repository's own test-suite
(`tests/scanner.rs`): the `public` scenarios of
`it_should_list_all_files_in_the_public_folder_explicitly`, the
`src` layout of `it_should_use_a_glob_for_top_level_folders`, and the
`nested-d` subtree of `it_should_ignore_and_expand_nested_ignored_folders`.
The `allowed` lists are the directories the source walker admits there (the
gitignored directories being excluded). -/

/-- Base with a top-level file and a `public` subtree with a nested file. -/
def demoPublicRoot : FSEntry :=
  .dir "base"
    [ .dir "public" [ .file "a.html", .dir "nested" [ .file "b.html" ] ]
    , .file "index.html" ]

/-- All directories of `demoPublicRoot` are admitted by the walker. -/
def demoPublicAllowed : List Path := [[], ["public"], ["public", "nested"]]

/-- The walker entries `scan_sources` consumes for `demoPublicRoot`
(as the repository's public-folder tests observe: every file under `public`
is admitted and listed). -/
def demoPublicItems : List WalkItem :=
  [ { path := [], meta := some true }
  , { path := ["index.html"], meta := some false }
  , { path := ["public"], meta := some true }
  , { path := ["public", "a.html"], meta := some false }
  , { path := ["public", "nested"], meta := some true }
  , { path := ["public", "nested", "b.html"], meta := some false } ]

/-- Base with a single nested chain `r/p/d` where `d` is gitignored: `r` is
classified deep-globable when visited, and the demotion triggered by `d`
re-promotes `p` — the parent of the ignored directory itself — to
deep-globable. -/
def demoC4Root : FSEntry :=
  .dir "base" [ .dir "r" [ .dir "p" [ .dir "d" [] ] ] ]

/-- The walker does not admit the gitignored `r/p/d`. -/
def demoC4Allowed : List Path := [[], ["r"], ["r", "p"]]

/-- The `nested-d` subtree of the repository test
`it_should_ignore_and_expand_nested_ignored_folders`: a `.gitignore` with
`deep/` excludes `nested-d/very/deeply/nested/deep`. -/
def demoDRoot : FSEntry :=
  .dir "base"
    [ .dir "nested-d"
        [ .file "foo.html"
        , .dir "very"
            [ .dir "deeply"
                [ .dir "nested"
                    [ .file "foo.html"
                    , .dir "deep" [ .file "foo.html" ]
                    , .dir "directory" [ .file "foo.html", .dir "again" [] ] ] ] ] ] ]

/-- The walker admits everything except the gitignored `deep` directory. -/
def demoDAllowed : List Path :=
  [[], ["nested-d"], ["nested-d", "very"], ["nested-d", "very", "deeply"],
   ["nested-d", "very", "deeply", "nested"],
   ["nested-d", "very", "deeply", "nested", "directory"],
   ["nested-d", "very", "deeply", "nested", "directory", "again"]]

/-- Base with one `src` subdirectory holding a template file. -/
def demoSrcRoot : FSEntry :=
  .dir "base" [ .dir "src" [ .file "a.html" ], .file "index.html" ]

/-- All directories of `demoSrcRoot` are admitted. -/
def demoSrcAllowed : List Path := [[], ["src"]]

/-- Concrete content containing the legacy `-[]` sequence. -/
def demoC9Content : List Char := ['a', 'b', '-', '[', ']', 'c', 'd']

/-! # Theorems -/

/-! ## Change detector (claim C5) -/

theorem if_lt_eq_max (a b : Nat) : (if a < b then b else a) = max a b := by
  split <;> omega

theorem ctsLoop_eq (since : Nat) (cs : List MTree)
    (hIH : ∀ c ∈ cs, ∀ s, changedTimeSince c s = ctsSpec c s) :
    ∀ latest, ctsLoop cs latest since =
      match firstQualFile cs since with
      | some fm => fm
      | none => max latest (maxDirSpec cs since) := by
  induction cs with
  | nil => intro latest; simp [ctsLoop, firstQualFile, maxDirSpec]
  | cons c rest ih =>
    have hrest : ∀ c ∈ rest, ∀ s, changedTimeSince c s = ctsSpec c s :=
      fun c hc => hIH c (List.mem_cons_of_mem _ hc)
    intro latest
    match c with
    | .dir m cs2 =>
      have hc := hIH (.dir m cs2) (List.mem_cons_self _ _)
      simp only [ctsLoop, firstQualFile, maxDirSpec]
      rw [ih hrest, hc since, if_lt_eq_max]
      cases firstQualFile rest since with
      | some fm => rfl
      | none => simp [Nat.max_assoc]
    | .file fm =>
      simp only [ctsLoop, firstQualFile, maxDirSpec]
      by_cases hq : since < fm
      · simp [hq]
      · simp [hq, ih hrest]

theorem cts_eq_aux : ∀ n t, sizeOf t ≤ n → ∀ since,
    changedTimeSince t since = ctsSpec t since := by
  intro n
  induction n with
  | zero =>
    intro t ht
    cases t <;> simp at ht
  | succ n ih =>
    intro t ht since
    match t with
    | .file m => simp [changedTimeSince, ctsSpec]
    | .dir m cs =>
      have hIH : ∀ c ∈ cs, ∀ s, changedTimeSince c s = ctsSpec c s := by
        intro c hc s
        apply ih c _ s
        have h1 := List.sizeOf_lt_of_mem hc
        have h2 : sizeOf (MTree.dir m cs) = 1 + sizeOf m + sizeOf cs := by
          simp
        omega
      simp only [changedTimeSince, ctsSpec]
      by_cases hm : since < m
      · simp [hm]
      · simp only [hm, if_false]
        rw [ctsLoop_eq since cs hIH m]

/-- C5: `changed_time_since(dir, since)` returns the directory's own mtime
when it exceeds `since`; otherwise it iterates the direct children, recursing
into each subdirectory with the same `since` and keeping the maximum, returns
immediately the mtime of the first file child whose mtime exceeds `since`, and
otherwise returns the running maximum (the directory's mtime joined with the
subdirectory recursion results). Proved as: the embedded code equals the
independent specification-side recursion `ctsSpec` on every tree. -/
theorem c5_change_detector (t : MTree) (since : Nat) :
    changedTimeSince t since = ctsSpec t since :=
  cts_eq_aux (sizeOf t) t le_rfl since

/-! ## Walker change filter (claim C6) -/

/-- C6 (amended): the walker's change filter admits an entry on first sighting
and thereafter exactly when the newly computed mtime differs from the recorded
one; a recorded directory's computed mtime is the change detector's effective
mtime with the recorded value as threshold; the map is updated to the computed
value; on an I/O error the computed value is the current wall-clock time, so
such an entry is admitted whenever that wall-clock value differs from the
recorded one (and on first sighting regardless). -/
theorem c6_change_filter (m : MtimeMap) (e : WalkEntry) (now : Nat) :
    (m e.path = none → filterAdmits m e now = true)
    ∧ (∀ prev, m e.path = some prev →
        (filterAdmits m e now = true ↔ filterCurrentTime m e now ≠ prev))
    ∧ (∀ prev tree, m e.path = some prev → e.isDir = true → e.node = some tree →
        filterCurrentTime m e now = changedTimeSince tree prev)
    ∧ (filterUpdate m e now e.path = some (filterCurrentTime m e now))
    ∧ (e.node = none → filterCurrentTime m e now = now)
    ∧ (∀ prev, e.node = none → m e.path = some prev → prev ≠ now →
        filterAdmits m e now = true) := by
  refine ⟨?_, ?_, ?_, ?_, ?_, ?_⟩
  · intro h; simp [filterAdmits, h]
  · intro prev h
    simp only [filterAdmits, h]
    rw [decide_eq_true_iff]
    exact ne_comm
  · intro prev tree h hdir hnode
    simp [filterCurrentTime, h, hdir, hnode]
  · simp [filterUpdate]
  · intro hnode
    simp only [filterCurrentTime, hnode]
    rcases m e.path with _ | prev <;> rcases e.isDir with _ | _ <;> rfl
  · intro prev hnode h hne
    simp only [filterAdmits, h]
    rw [decide_eq_true_iff]
    intro heq
    apply hne
    rw [heq]
    simp only [filterCurrentTime, hnode]
    rcases hm : m e.path with _ | q <;> rcases hd : e.isDir with _ | _ <;> rfl

/-- C6 counterexample: an entry whose metadata accesses all fail (an I/O
error) is not admitted when the recorded value happens to equal the current
wall-clock value, refuting the claim that any I/O error leads to admission. -/
theorem c6_io_error_counterexample :
    ({ path := ["f"], isDir := false, node := none } : WalkEntry).node = none
    ∧ filterAdmits (fun q => if q = ["f"] then some 5 else none)
        { path := ["f"], isDir := false, node := none } 5 = false := by
  exact ⟨rfl, by decide⟩

/-- C6 witness: a first-sighting entry is admitted. -/
theorem c6_witness :
    filterAdmits (fun _ => none)
      { path := ["a.html"], isDir := false, node := some (.file 3) } 9 = true :=
  (c6_change_filter (fun _ => none)
      { path := ["a.html"], isDir := false, node := some (.file 3) } 9).1 rfl

/-! ## Git repository detection (claim C7) -/

theorem mem_pathAncestors (p q : Path) :
    q ∈ pathAncestors p ↔ ∃ k, k ≤ p.length ∧ q = p.take k := by
  unfold pathAncestors
  simp only [List.mem_map, List.mem_reverse, List.mem_range]
  constructor
  · rintro ⟨k, hk, rfl⟩
    exact ⟨k, by omega, rfl⟩
  · rintro ⟨k, hk, rfl⟩
    exact ⟨k, by omega, rfl⟩

/-- C7: `create_walker` requires a git repository exactly when some ancestor
of the first root base (the base itself included) contains a `.git` entry;
with no such ancestor the builder keeps `require_git(false)`, honoring
`.gitignore` files regardless of a repository. -/
theorem c7_require_git (firstRoot : Path) (gitAt : Path → Bool) :
    requireGit firstRoot gitAt = true
      ↔ ∃ k, k ≤ firstRoot.length ∧ gitAt (firstRoot.take k) = true := by
  unfold requireGit
  rw [List.any_eq_true]
  constructor
  · rintro ⟨q, hq, hg⟩
    obtain ⟨k, hk, rfl⟩ := (mem_pathAncestors firstRoot q).mp hq
    exact ⟨k, hk, hg⟩
  · rintro ⟨k, hk, hg⟩
    exact ⟨firstRoot.take k, (mem_pathAncestors firstRoot _).mpr ⟨k, hk, rfl⟩, hg⟩

/-! ## Candidate accumulator (claim C8) -/

theorem applyScanOp_subset (acc : Finset String) (op : ScanOp) :
    acc ⊆ applyScanOp acc op := by
  cases op <;>
    · simp only [applyScanOp, scanFn, scanContentFn]
      exact Finset.subset_union_left

theorem applyScanOps_subset : ∀ (ops : List ScanOp) (acc : Finset String),
    acc ⊆ applyScanOps acc ops := by
  intro ops
  induction ops with
  | nil => intro acc; simp [applyScanOps]
  | cons op rest ih =>
    intro acc
    exact (applyScanOp_subset acc op).trans (ih (applyScanOp acc op))

theorem scanFn_snd (acc e : Finset String) : (scanFn acc e).2 = acc ∪ e := by
  simp [scanFn, scanContentFn, Finset.union_sdiff_self_eq_union]

/-- C8: `scan()` returns the sorted snapshot of the full accumulator (the
union of the previous accumulator with the freshly extracted candidates),
`scan_content()` returns the sorted list of exactly the extracted candidates
not already accumulated, and the accumulator grows monotonically under any
sequence of calls, so each later full snapshot contains every earlier one. -/
theorem c8_accumulator_monotone :
    (∀ acc e : Finset String,
        (scanFn acc e).2 = acc ∪ e
        ∧ (scanFn acc e).1 = (acc ∪ e).sort (· ≤ ·)
        ∧ List.Sorted (· ≤ ·) (scanFn acc e).1)
    ∧ (∀ acc e : Finset String,
        List.Sorted (· ≤ ·) (scanContentFn acc e).1
        ∧ ∀ x, x ∈ (scanContentFn acc e).1 ↔ x ∈ e ∧ x ∉ acc)
    ∧ (∀ (acc : Finset String) (ops : List ScanOp), acc ⊆ applyScanOps acc ops)
    ∧ (∀ (acc e : Finset String) (ops : List ScanOp) (e₂ : Finset String) (x : String),
        x ∈ (scanFn acc e).1 →
        x ∈ (scanFn (applyScanOps (scanFn acc e).2 ops) e₂).1) := by
  refine ⟨?_, ?_, fun acc ops => applyScanOps_subset ops acc, ?_⟩
  · intro acc e
    refine ⟨scanFn_snd acc e, ?_, ?_⟩
    · show ((scanContentFn acc e).2).sort (· ≤ ·) = _
      rw [show (scanContentFn acc e).2 = acc ∪ e by
        simp [scanContentFn, Finset.union_sdiff_self_eq_union]]
    · exact Finset.sort_sorted _ _
  · intro acc e
    refine ⟨Finset.sort_sorted _ _, ?_⟩
    intro x
    simp [scanContentFn, Finset.mem_sort, Finset.mem_sdiff]
  · intro acc e ops e₂ x hx
    have hx2 : x ∈ (scanFn acc e).2 := by
      have h1 : x ∈ ((scanContentFn acc e).2).sort (· ≤ ·) := hx
      rwa [Finset.mem_sort] at h1
    have hsub : (scanFn acc e).2 ⊆ applyScanOps (scanFn acc e).2 ops :=
      applyScanOps_subset ops _
    have hx3 : x ∈ (scanFn (applyScanOps (scanFn acc e).2 ops) e₂).2 := by
      rw [scanFn_snd]
      exact Finset.mem_union_left _ (hsub hx2)
    show x ∈ ((scanContentFn _ _).2).sort (· ≤ ·)
    rwa [Finset.mem_sort]

/-- C8 witness: a candidate returned by a first `scan()` still appears in the
snapshot returned after further calls. -/
theorem c8_witness :
    "a" ∈ (scanFn (applyScanOps (scanFn ∅ {"a"}).2 []) ∅).1 := by
  apply c8_accumulator_monotone.2.2.2 ∅ {"a"} [] ∅ "a"
  show "a" ∈ ((scanContentFn ∅ {"a"}).2).sort (· ≤ ·)
  rw [Finset.mem_sort]
  simp [scanContentFn]

/-! ## Extensionless files (claim C10) -/

theorem scanSources_subsets : ∀ (items : List WalkItem) (st : ScanState),
    st.files ⊆ (scanSources st items).files
    ∧ st.changedContent ⊆ (scanSources st items).changedContent := by
  intro items
  induction items with
  | nil => intro st; exact ⟨fun _ h => h, fun _ h => h⟩
  | cons it rest ih =>
    intro st
    have hstep : scanSources st (it :: rest) = scanSources (scanSourcesStep st it) rest := rfl
    have h1 : st.files ⊆ (scanSourcesStep st it).files := by
      rcases it with ⟨p, _ | _ | _⟩ <;> simp [scanSourcesStep]
    have h2 : st.changedContent ⊆ (scanSourcesStep st it).changedContent := by
      rcases it with ⟨p, _ | _ | _⟩ <;> simp [scanSourcesStep]
    rw [hstep]
    exact ⟨h1.trans (ih _).1, h2.trans (ih _).2⟩

theorem scanSources_mem_of_file : ∀ (items : List WalkItem) (st : ScanState) (p : Path),
    ({ path := p, meta := some false } : WalkItem) ∈ items →
    p ∈ (scanSources st items).files
    ∧ (p, fileExtension (lastComponent p)) ∈ (scanSources st items).changedContent := by
  intro items
  induction items with
  | nil => intro st p h; cases h
  | cons it rest ih =>
    intro st p h
    rcases List.mem_cons.mp h with heq | htail
    · have hstep : scanSources st (it :: rest) = scanSources (scanSourcesStep st it) rest := rfl
      rw [hstep, ← heq]
      constructor
      · exact (scanSources_subsets rest _).1 (by simp [scanSourcesStep])
      · exact (scanSources_subsets rest _).2 (by simp [scanSourcesStep])
    · exact ih _ p htail

/-- C10: an admitted file whose name has no dot is recorded with the empty
string as its extension and appears in the scanner's file list, and the empty
extension matches no pre-processor table entry, so content is passed through
unchanged. -/
theorem c10_extensionless (st : ScanState) (items : List WalkItem) (p : Path)
    (pp : PreProcessors) (c : List Nat)
    (hmem : ({ path := p, meta := some false } : WalkItem) ∈ items)
    (hname : splitOnChar '.' (lastComponent p).data = [(lastComponent p).data]) :
    p ∈ (scanSources st items).files
    ∧ (p, "") ∈ (scanSources st items).changedContent
    ∧ preProcessInput pp c "" = c := by
  have hext : fileExtension (lastComponent p) = "" := by
    unfold fileExtension
    rw [hname]
    generalize (lastComponent p).data = xs
    cases xs with
    | nil => rfl
    | cons c0 cs => rfl
  obtain ⟨h1, h2⟩ := scanSources_mem_of_file items st p hmem
  rw [hext] at h2
  exact ⟨h1, h2, rfl⟩

/-- C10 witness: a concrete extensionless file is recorded and listed, with
its bytes passed through the pre-processor dispatch unchanged. -/
theorem c10_witness :
    ["my-file"] ∈ (scanSources ⟨[], [], []⟩ [{ path := ["my-file"], meta := some false }]).files
    ∧ (["my-file"], "") ∈
        (scanSources ⟨[], [], []⟩ [{ path := ["my-file"], meta := some false }]).changedContent
    ∧ preProcessInput ⟨id, id, id, id, id, id, id, id, id⟩ [104, 105] "" = [104, 105] :=
  c10_extensionless ⟨[], [], []⟩ [{ path := ["my-file"], meta := some false }]
    ["my-file"] ⟨id, id, id, id, id, id, id, id, id⟩ [104, 105]
    (List.mem_singleton.mpr rfl) (by decide)

/-! ## Candidate positions (claim C9) -/

theorem replaceLegacy_length (xs : List Char) :
    (replaceLegacy xs).length = xs.length := by
  induction xs using replaceLegacy.induct with
  | case1 rest ih => simp [replaceLegacy, ih]
  | case2 c rest h ih => simp [replaceLegacy, ih]
  | case3 => rfl

theorem occursAt_cons {c : Char} {xs : List Char} {k : Nat} :
    OccursAt (c :: xs) (k + 1) ↔ OccursAt xs k := by
  unfold OccursAt sliceL
  rw [List.drop_succ_cons]

theorem occursAt_zero_pat (rest : List Char) :
    OccursAt ('-' :: '[' :: ']' :: rest) 0 := by
  simp [OccursAt, sliceL, legacyPat]

theorem occursAt_bound {xs : List Char} {k : Nat} (h : OccursAt xs k) :
    k + 3 ≤ xs.length := by
  unfold OccursAt sliceL at h
  have h3 : ((xs.drop k).take 3).length = 3 := by rw [h]; rfl
  simp [List.length_take, List.length_drop] at h3
  omega

theorem replaceLegacy_getElem? : ∀ (xs : List Char) (j : Nat),
    (∀ k, OccursAt xs k → ¬(k ≤ j ∧ j < k + 3)) →
    (replaceLegacy xs)[j]? = xs[j]? := by
  intro xs
  induction xs using replaceLegacy.induct with
  | case1 rest ih =>
    intro j hj
    have hj3 : 3 ≤ j := by
      have := hj 0 (occursAt_zero_pat rest)
      omega
    obtain ⟨j', rfl⟩ : ∃ j', j = j' + 3 := ⟨j - 3, by omega⟩
    show ('X' :: 'Y' :: 'Z' :: replaceLegacy rest)[j' + 3]? = _
    simp only [List.getElem?_cons_succ]
    apply ih
    intro k hk
    have hk3 : OccursAt ('-' :: '[' :: ']' :: rest) (k + 3) := by
      rw [show k + 3 = k + 2 + 1 from rfl, occursAt_cons,
          show k + 2 = k + 1 + 1 from rfl, occursAt_cons, occursAt_cons]
      exact hk
    have := hj (k + 3) hk3
    omega
  | case2 c rest h ih =>
    intro j hj
    have heq : replaceLegacy (c :: rest) = c :: replaceLegacy rest := by
      simp [replaceLegacy, h]
    rw [heq]
    cases j with
    | zero => simp
    | succ j' =>
      simp only [List.getElem?_cons_succ]
      apply ih
      intro k hk
      have := hj (k + 1) (occursAt_cons.mpr hk)
      omega
  | case3 => intro j hj; rfl

theorem sliceL_getElem? {α : Type} (i n : Nat) (xs : List α) (m : Nat) :
    (sliceL i n xs)[m]? = if m < n then xs[i + m]? else none := by
  unfold sliceL
  by_cases hm : m < n
  · rw [if_pos hm, List.getElem?_take_of_lt hm, List.getElem?_drop]
  · rw [if_neg hm]
    apply List.getElem?_eq_none
    have := List.length_take_le n (xs.drop i)
    omega

theorem sliceL_length_of_le {α : Type} (i n : Nat) (xs : List α)
    (h : i + n ≤ xs.length) : (sliceL i n xs).length = n := by
  simp [sliceL, List.length_take, List.length_drop]
  omega

theorem containsLegacy_iff (xs : List Char) :
    containsLegacy xs = true ↔ ∃ k, OccursAt xs k := by
  induction xs using containsLegacy.induct with
  | case1 rest =>
    exact ⟨fun _ => ⟨0, occursAt_zero_pat rest⟩, fun _ => rfl⟩
  | case2 c rest h ih =>
    have heq : containsLegacy (c :: rest) = containsLegacy rest := by
      simp [containsLegacy, h]
    rw [heq, ih]
    constructor
    · rintro ⟨k, hk⟩
      exact ⟨k + 1, occursAt_cons.mpr hk⟩
    · rintro ⟨k, hk⟩
      cases k with
      | zero =>
        exfalso
        unfold OccursAt sliceL at hk
        cases rest with
        | nil => simp [legacyPat] at hk
        | cons r1 rest2 =>
          cases rest2 with
          | nil => simp [legacyPat] at hk
          | cons r2 rest3 =>
            simp [legacyPat] at hk
            exact h rest3 hk.1 (by rw [hk.2.1, hk.2.2])
      | succ k' => exact ⟨k', occursAt_cons.mp hk⟩
  | case3 =>
    refine ⟨fun h => absurd h (by decide), ?_⟩
    rintro ⟨k, hk⟩
    unfold OccursAt sliceL at hk
    simp [legacyPat] at hk

theorem occursAt_slice {content : List Char} {i n k : Nat}
    (hk : OccursAt content k) (h1 : i ≤ k) (h2 : k + 3 ≤ i + n) :
    OccursAt (sliceL i n content) (k - i) := by
  unfold OccursAt
  have heq : sliceL (k - i) 3 (sliceL i n content) = sliceL k 3 content := by
    apply List.ext_getElem?
    intro m
    simp only [sliceL_getElem?]
    by_cases hm : m < 3
    · rw [if_pos hm, if_pos hm, if_pos (show k - i + m < n by omega)]
      congr 1
      omega
    · rw [if_neg hm, if_neg hm]
  rw [heq]
  exact hk

/-- C9: every `(token, offset)` pair that `get_candidates_with_positions`
returns satisfies `content[offset : offset + token.length] = token` over the
original input, including when the input contains the legacy `-[]` sequence.
The external extractor is modelled by the spans it returns; the hypotheses say
each span lies within the content and does not split a replaced `-[]`
occurrence (the extractor returns token slices, which never cut through the
replaced three-letter placeholder). -/
theorem c9_positions_roundtrip (content : List Char) (spans : List (Nat × Nat))
    (hb : ∀ sp ∈ spans, sp.1 + sp.2 ≤ content.length)
    (hsplit : ∀ sp ∈ spans, ∀ k, k < content.length → OccursAt content k →
      (k + 3 ≤ sp.1 ∨ sp.1 + sp.2 ≤ k) ∨ (sp.1 ≤ k ∧ k + 3 ≤ sp.1 + sp.2)) :
    ∀ pr ∈ getCandidatesWithPositions content spans,
      sliceL pr.2 pr.1.length content = pr.1 := by
  intro pr hpr
  obtain ⟨sp, hsp, rfl⟩ := List.mem_map.mp hpr
  obtain ⟨i, n⟩ := sp
  have hbi : i + n ≤ content.length := hb (i, n) hsp
  show sliceL i (restoreToken content i n).length content = restoreToken content i n
  unfold restoreToken
  by_cases hc : containsLegacy (sliceL i n content) = true
  · rw [if_pos hc, sliceL_length_of_le i n content hbi]
  · rw [if_neg hc]
    have hlen : (sliceL i n (replaceLegacy content)).length = n := by
      apply sliceL_length_of_le
      rw [replaceLegacy_length]
      exact hbi
    rw [hlen]
    apply List.ext_getElem?
    intro m
    rw [sliceL_getElem?, sliceL_getElem?]
    by_cases hm : m < n
    · rw [if_pos hm, if_pos hm]
      rw [replaceLegacy_getElem?]
      intro k hk hcov
      have hklen : k < content.length := by
        have := occursAt_bound hk
        omega
      rcases hsplit (i, n) hsp k hklen hk with hd | ⟨hl, hr⟩
      · omega
      · exact absurd ((containsLegacy_iff _).mpr ⟨k - i, occursAt_slice hk hl hr⟩) hc
    · rw [if_neg hm, if_neg hm]

/-- C9 witness: on concrete content containing `-[]`, the returned token for
the span covering the whole input is the original input slice. -/
theorem c9_witness :
    sliceL 0 (restoreToken demoC9Content 0 7).length demoC9Content
      = restoreToken demoC9Content 0 7 :=
  c9_positions_roundtrip demoC9Content [(0, 7)] (by decide) (by decide)
    (restoreToken demoC9Content 0 7, 0) (by decide)

/-! ## Resolver state invariants (claims C1-C4)

The lemmas below establish that the `resolve` walk never classifies the base
or any directory of the `public` subtree as deep- or shallow-globable, and
that every forced-static directory lies in the `public` subtree. -/

theorem mem_insertP {q p : Path} {l : List Path} :
    q ∈ insertP p l ↔ q = p ∨ q ∈ l := by
  unfold insertP
  by_cases h : p ∈ l
  · simp only [if_pos h]
    constructor
    · exact Or.inr
    · rintro (rfl | hq)
      · exact h
      · exact hq
  · simp [if_neg h]

theorem mem_removeP {q p : Path} {l : List Path} :
    q ∈ removeP p l ↔ q ∈ l ∧ q ≠ p := by
  simp [removeP]

theorem head?_append_singleton {p : Path} {x : String} (h : p ≠ []) :
    (p ++ [x]).head? = p.head? := by
  cases p with
  | nil => exact absurd rfl h
  | cons a t => rfl

theorem head?_take {p : Path} {k : Nat} (hk : k ≠ 0) :
    (p.take k).head? = p.head? := by
  cases p with
  | nil => simp
  | cons a t =>
    cases k with
    | zero => exact absurd rfl hk
    | succ k' => rfl

theorem strictAncestors_mem {q p : Path} (h : q ∈ strictAncestors p) :
    q = [] ∨ q.head? = p.head? := by
  unfold strictAncestors at h
  simp only [List.mem_map, List.mem_reverse, List.mem_range] at h
  obtain ⟨k, hk, rfl⟩ := h
  cases k with
  | zero => exact Or.inl rfl
  | succ k' => exact Or.inr (head?_take (Nat.succ_ne_zero k'))

theorem head?_dropLast_of_ne_nil {p : Path} (h : p.dropLast ≠ []) :
    p.dropLast.head? = p.head? := by
  cases p with
  | nil => exact absurd rfl h
  | cons a t =>
    cases t with
    | nil => exact absurd rfl h
    | cons b t' => rfl

theorem promoteLoop_forced (parentPath entryPath : Path) :
    ∀ (cs : List FSEntry) (st : RState),
      (promoteLoop st parentPath entryPath cs).forcedStatic = st.forcedStatic := by
  intro cs
  induction cs with
  | nil => intro st; rfl
  | cons c rest ih =>
    intro st
    unfold promoteLoop
    by_cases hd : entryIsDir c
    · simp only [hd, if_true]
      by_cases he : parentPath ++ [entryName c] = entryPath
      · simp [he]
      · simp only [he, if_false]
        rw [ih]
    · simp only [hd]
      rw [if_neg (by simp), ih]

theorem rescanPromote_forced (root : FSEntry) (st : RState) (parentPath entryPath : Path) :
    (rescanPromote root st parentPath entryPath).forcedStatic = st.forcedStatic := by
  unfold rescanPromote
  cases findDir parentPath root with
  | none => rfl
  | some e => exact promoteLoop_forced parentPath entryPath _ st

theorem demoteChain_forced (root : FSEntry) (entryPath : Path) :
    ∀ (chain : List Path) (st : RState),
      (demoteChain root entryPath st chain).forcedStatic = st.forcedStatic := by
  intro chain
  induction chain with
  | nil => intro st; rfl
  | cons p rest ih =>
    intro st
    unfold demoteChain
    by_cases h1 : p ∈ st.deep
    · simp only [h1, if_true]
      rw [rescanPromote_forced]
    · simp only [h1, if_false]
      by_cases h2 : p = []
      · simp [h2]
      · simp only [h2, if_false]
        rw [ih]

theorem promote_forced (st : RState) (path : Path) :
    (promote st path).forcedStatic = st.forcedStatic := by
  unfold promote
  split <;> rfl

theorem processDir_forced_mono (root : FSEntry) (allowed : List Path)
    (st : RState) (path : Path) (name : String) :
    st.forcedStatic ⊆ (processDir root allowed st path name).1.forcedStatic := by
  unfold processDir
  by_cases h1 : name = ".git"
  · simp [h1]
  · simp only [h1, if_false]
    by_cases h2 : path ∈ st.forcedStatic
    · simp only [h2, if_true]
      exact List.subset_cons_self _ _
    · simp only [h2, if_false]
      by_cases h3 : parentForced st path
      · simp only [h3, if_true]
        exact List.subset_cons_self _ _
      · simp only [h3, Bool.false_eq_true, if_false]
        by_cases h4 : path ∉ allowed
        · rw [if_pos h4]
          show st.forcedStatic ⊆ (demote root st path).forcedStatic
          rw [demote, demoteChain_forced]
          exact fun _ h => h
        · rw [if_neg h4]
          show st.forcedStatic ⊆ (promote st path).forcedStatic
          rw [promote_forced]
          exact fun _ h => h

theorem head?_append_left {l t : Path} (h : l ≠ []) : (l ++ t).head? = l.head? := by
  cases l with
  | nil => exact absurd rfl h
  | cons a l' => rfl

theorem promoteLoop_ok (parentPath entryPath : Path)
    (hp : parentPath ≠ [] ∧ parentPath.head? ≠ some "public") :
    ∀ (cs : List FSEntry) (st : RState), StateOK st →
      StateOK (promoteLoop st parentPath entryPath cs) := by
  intro cs
  induction cs with
  | nil => intro st h; exact h
  | cons c rest ih =>
    intro st h
    unfold promoteLoop
    by_cases hd : entryIsDir c = true
    · rw [if_pos hd]
      by_cases he : parentPath ++ [entryName c] = entryPath
      · rw [if_pos he]; exact h
      · rw [if_neg he]
        apply ih
        obtain ⟨h1, h2, h3, h4⟩ := h
        refine ⟨?_, ?_, h3, h4⟩
        · intro q hq
          rcases mem_insertP.mp hq with rfl | hq'
          · refine ⟨by simp, ?_⟩
            rw [head?_append_left hp.1]
            exact hp.2
          · exact h1 q hq'
        · intro q hq
          exact h2 q (mem_removeP.mp hq).1
    · rw [if_neg hd]
      exact ih st h

theorem rescanPromote_ok (root : FSEntry) (st : RState) (parentPath entryPath : Path)
    (hp : parentPath ≠ [] ∧ parentPath.head? ≠ some "public") (h : StateOK st) :
    StateOK (rescanPromote root st parentPath entryPath) := by
  unfold rescanPromote
  cases findDir parentPath root with
  | none => exact h
  | some e => exact promoteLoop_ok parentPath entryPath hp _ st h

theorem demoteChain_ok (root : FSEntry) (entryPath : Path)
    (hhead : entryPath.head? ≠ some "public") :
    ∀ (chain : List Path) (st : RState), StateOK st →
      (∀ q ∈ chain, q = [] ∨ q.head? = entryPath.head?) →
      StateOK (demoteChain root entryPath st chain) := by
  intro chain
  induction chain with
  | nil => intro st h _; exact h
  | cons p rest ih =>
    intro st h hchain
    unfold demoteChain
    by_cases h1 : p ∈ st.deep
    · rw [if_pos h1]
      obtain ⟨hdp, hs, hf, hpub⟩ := h
      have hp := hdp p h1
      apply rescanPromote_ok root _ p entryPath hp
      refine ⟨?_, ?_, hf, hpub⟩
      · intro q hq
        exact hdp q (mem_removeP.mp hq).1
      · intro q hq
        rcases mem_insertP.mp hq with rfl | hq'
        · exact hp
        · exact hs q hq'
    · rw [if_neg h1]
      by_cases h2 : p = []
      · rw [if_pos h2]; exact h
      · rw [if_neg h2]
        apply ih _ _ (fun q hq => hchain q (List.mem_cons_of_mem _ hq))
        obtain ⟨hdp, hs, hf, hpub⟩ := h
        refine ⟨hdp, ?_, hf, hpub⟩
        intro q hq
        rcases mem_insertP.mp hq with heq | hq'
        · rw [heq]
          refine ⟨h2, ?_⟩
          rcases hchain p (List.mem_cons_self p rest) with h0 | hh
          · exact absurd h0 h2
          · rw [hh]; exact hhead
        · exact hs q hq'

theorem promote_ok (st : RState) (path : Path)
    (hhead : path.head? ≠ some "public") (h : StateOK st) :
    StateOK (promote st path) := by
  unfold promote
  split
  case isTrue hcond =>
    obtain ⟨hdp, hs, hf, hpub⟩ := h
    refine ⟨?_, hs, hf, hpub⟩
    intro q hq
    rcases mem_insertP.mp hq with rfl | hq'
    · exact ⟨hcond.2, hhead⟩
    · exact hdp q hq'
  case isFalse _ => exact h

theorem public_head_cases (st : RState) (path : Path) (h : StateOK st)
    (hstack : path.head? = some "public" → 2 ≤ path.length →
      path ∈ st.forcedStatic ∨ path.dropLast ∈ st.forcedStatic)
    (h2 : path ∉ st.forcedStatic) (h3 : ¬(parentForced st path = true)) :
    path.head? ≠ some "public" := by
  intro hpub
  rcases Nat.lt_or_ge path.length 2 with hlen | hlen
  · have hpp : path = ["public"] := by
      cases path with
      | nil => simp at hpub
      | cons a t =>
        cases t with
        | nil =>
          simp only [List.head?_cons, Option.some.injEq] at hpub
          rw [hpub]
        | cons b t' => simp at hlen; omega
    rw [hpp] at h2
    exact h2 h.2.2.2
  · rcases hstack hpub hlen with hin | hpar
    · exact h2 hin
    · apply h3
      unfold parentForced
      cases path with
      | nil => simp at hpub
      | cons a t => exact decide_eq_true hpar

theorem processDir_ok (root : FSEntry) (allowed : List Path) (st : RState)
    (path : Path) (name : String) (h : StateOK st)
    (hstack : path.head? = some "public" → 2 ≤ path.length →
      path ∈ st.forcedStatic ∨ path.dropLast ∈ st.forcedStatic) :
    StateOK (processDir root allowed st path name).1 := by
  unfold processDir
  by_cases h1 : name = ".git"
  · rw [if_pos h1]; exact h
  · rw [if_neg h1]
    by_cases h2 : path ∈ st.forcedStatic
    · rw [if_pos h2]
      obtain ⟨hdp, hs, hf, hpub⟩ := h
      refine ⟨hdp, hs, ?_, List.mem_cons_of_mem _ hpub⟩
      intro q hq
      rcases List.mem_cons.mp hq with rfl | hq'
      · exact hf _ h2
      · exact hf _ hq'
    · rw [if_neg h2]
      by_cases h3 : parentForced st path = true
      · rw [if_pos h3]
        obtain ⟨hdp, hs, hf, hpub⟩ := h
        have hpath : path.head? = some "public" := by
          unfold parentForced at h3
          cases path with
          | nil => simp at h3
          | cons a t =>
            have hmem : (a :: t).dropLast ∈ st.forcedStatic := of_decide_eq_true h3
            have hhd : ((a :: t).dropLast).head? = some "public" := hf _ hmem
            have hne : (a :: t).dropLast ≠ [] := by
              intro hn
              rw [hn] at hhd
              simp at hhd
            rw [← head?_dropLast_of_ne_nil hne]
            exact hhd
        refine ⟨hdp, hs, ?_, List.mem_cons_of_mem _ hpub⟩
        intro q hq
        rcases List.mem_cons.mp hq with rfl | hq'
        · exact hpath
        · exact hf _ hq'
      · rw [if_neg h3]
        have hhead : path.head? ≠ some "public" := public_head_cases st path h hstack h2 h3
        by_cases h4 : path ∉ allowed
        · rw [if_pos h4]
          show StateOK (demoteChain root path st (strictAncestors path))
          exact demoteChain_ok root path hhead _ st h (fun q hq => strictAncestors_mem hq)
        · rw [if_neg h4]
          exact promote_ok st path hhead h

theorem processDir_public_forced (root : FSEntry) (allowed : List Path) (st : RState)
    (path : Path) (name : String) (h : StateOK st)
    (hstack : path.head? = some "public" → 2 ≤ path.length →
      path ∈ st.forcedStatic ∨ path.dropLast ∈ st.forcedStatic)
    (hdesc : (processDir root allowed st path name).2 = true)
    (hpub : path.head? = some "public") :
    path ∈ (processDir root allowed st path name).1.forcedStatic := by
  unfold processDir at hdesc ⊢
  by_cases h1 : name = ".git"
  · rw [if_pos h1] at hdesc
    exact absurd hdesc (by simp)
  · rw [if_neg h1] at hdesc ⊢
    by_cases h2 : path ∈ st.forcedStatic
    · rw [if_pos h2]
      exact List.mem_cons_self _ _
    · rw [if_neg h2] at hdesc ⊢
      by_cases h3 : parentForced st path = true
      · rw [if_pos h3]
        exact List.mem_cons_self _ _
      · exact absurd hpub (public_head_cases st path h hstack h2 h3)

theorem stackOK_mono {st st' : RState} {stack : List (Path × FSEntry)}
    (hsub : st.forcedStatic ⊆ st'.forcedStatic) (h : StackOK st stack) :
    StackOK st' stack := by
  intro pe hpe hp hl
  rcases h pe hpe hp hl with h1 | h1
  · exact Or.inl (hsub h1)
  · exact Or.inr (hsub h1)

theorem walkLoop_ok (root : FSEntry) (allowed : List Path) :
    ∀ (fuel : Nat) (st : RState) (stack : List (Path × FSEntry)),
      StateOK st → StackOK st stack →
      StateOK (walkLoop root allowed fuel st stack) := by
  intro fuel
  induction fuel with
  | zero => intro st stack h _; exact h
  | succ fuel ih =>
    intro st stack h hstack
    rcases stack with _ | ⟨⟨p, e⟩, rest⟩
    · exact h
    · have htail : StackOK st rest := fun pe hpe => hstack pe (List.mem_cons_of_mem _ hpe)
      cases e with
      | file nm =>
        have hstep : walkLoop root allowed (fuel + 1) st ((p, FSEntry.file nm) :: rest)
            = walkLoop root allowed fuel st rest := rfl
        rw [hstep]
        exact ih st rest h htail
      | dir nm cs =>
        have hcond := hstack (p, FSEntry.dir nm cs) (List.mem_cons_self _ _)
        have hok' : StateOK (processDir root allowed st p nm).1 :=
          processDir_ok root allowed st p nm h hcond
        have hmono := processDir_forced_mono root allowed st p nm
        have hstep : walkLoop root allowed (fuel + 1) st ((p, FSEntry.dir nm cs) :: rest)
            = if (processDir root allowed st p nm).2 = true
              then walkLoop root allowed fuel (processDir root allowed st p nm).1
                (((sortChildren cs).map (fun c => (p ++ [entryName c], c))) ++ rest)
              else walkLoop root allowed fuel (processDir root allowed st p nm).1 rest := rfl
        rw [hstep]
        by_cases hdesc : (processDir root allowed st p nm).2 = true
        · rw [if_pos hdesc]
          apply ih _ _ hok'
          intro pe hpe hp hl
          rcases List.mem_append.mp hpe with hchild | hrest
          · obtain ⟨c, hc, rfl⟩ := List.mem_map.mp hchild
            have hl' : 2 ≤ (p ++ [entryName c]).length := hl
            have hp' : (p ++ [entryName c]).head? = some "public" := hp
            have hpne : p ≠ [] := by
              intro hnil
              rw [hnil] at hl'
              simp at hl'
            have hph : p.head? = some "public" := by
              rw [← head?_append_left hpne (t := [entryName c])]
              exact hp'
            right
            show (p ++ [entryName c]).dropLast ∈ _
            rw [List.dropLast_concat]
            exact processDir_public_forced root allowed st p nm h hcond hdesc hph
          · exact stackOK_mono hmono htail pe hrest hp hl
        · rw [if_neg hdesc]
          exact ih _ _ hok' (stackOK_mono hmono htail)

theorem resolveState_ok (root : FSEntry) (allowed : List Path) :
    StateOK (resolveState root allowed) := by
  apply walkLoop_ok
  · refine ⟨?_, ?_, ?_, ?_⟩ <;> simp [initRState]
  · intro pe hpe hp hl
    rcases List.mem_singleton.mp hpe with rfl
    simp at hp

/-! ## Glob coverage (claim C1) -/

/-- C1 (amended): a path returned by `get_files()` is matched by an entry of
`get_globs()` when it lies directly in the base (the `*` entry), anywhere
under a deep-globable directory, or exactly two levels below a
shallow-globable directory, with an extension in the emitted list; but every
file strictly inside the `public` subtree — returned by `get_files()` as the
scanner's tests show — is matched by no returned entry at all, because
forced-static subtrees produce no glob entries. -/
theorem c1_coverage :
    (∀ (root : FSEntry) (allowed : List Path) (f : Path),
      (f.length = 1
        ∨ (∃ d, d ∈ (resolveState root allowed).deep ∧ d.isPrefixOf f = true
            ∧ d.length + 1 ≤ f.length
            ∧ extMatches (lastComponent f) extensionList = true)
        ∨ (∃ s, s ∈ (resolveState root allowed).shallow ∧ s.isPrefixOf f = true
            ∧ f.length = s.length + 2
            ∧ extMatches (lastComponent f) extensionList = true)) →
      ∃ g, g ∈ getGlobs root allowed ∧ matchesEntry g f = true)
    ∧ (∀ (root : FSEntry) (allowed : List Path) (f : Path),
      f.head? = some "public" → 2 ≤ f.length →
      ∀ g ∈ getGlobs root allowed, matchesEntry g f = false) := by
  constructor
  · intro root allowed f hf
    rcases hf with hlen | ⟨d, hd, hpre, hlen, hext⟩ | ⟨s, hs, hpre, hlen, hext⟩
    · refine ⟨{ base := [], pattern := GlobPattern.star }, List.mem_cons_self _ _, ?_⟩
      simp [matchesEntry, hlen]
    · refine ⟨{ base := d, pattern := GlobPattern.deepP extensionList },
        List.mem_cons_of_mem _ (List.mem_append_right _ (List.mem_map_of_mem _ hd)), ?_⟩
      simp [matchesEntry, hpre, hext, hlen]
    · refine ⟨{ base := s, pattern := GlobPattern.shallowP extensionList },
        List.mem_cons_of_mem _ (List.mem_append_left _ (List.mem_map_of_mem _ hs)), ?_⟩
      simp [matchesEntry, hpre, hext, hlen]
  · intro root allowed f hpub hlen g hg
    obtain ⟨hdeepOK, hshallowOK, _, _⟩ := resolveState_ok root allowed
    rcases List.mem_cons.mp hg with rfl | hg2
    · rw [Bool.eq_false_iff]
      intro htrue
      simp only [matchesEntry, Bool.and_eq_true, decide_eq_true_eq] at htrue
      have h1 : f.length = 1 := by simpa using htrue.2
      omega
    · unfold resolveGlobs at hg2
      rcases List.mem_append.mp hg2 with hsh | hdp
      · obtain ⟨b, hb, rfl⟩ := List.mem_map.mp hsh
        have hbprop := hshallowOK b hb
        rw [Bool.eq_false_iff]
        intro htrue
        simp only [matchesEntry, Bool.and_eq_true] at htrue
        obtain ⟨tl, rfl⟩ := List.isPrefixOf_iff_prefix.mp htrue.1.1
        rw [head?_append_left hbprop.1] at hpub
        exact hbprop.2 hpub
      · obtain ⟨b, hb, rfl⟩ := List.mem_map.mp hdp
        have hbprop := hdeepOK b hb
        rw [Bool.eq_false_iff]
        intro htrue
        simp only [matchesEntry, Bool.and_eq_true] at htrue
        obtain ⟨tl, rfl⟩ := List.isPrefixOf_iff_prefix.mp htrue.1.1
        rw [head?_append_left hbprop.1] at hpub
        exact hbprop.2 hpub

/-- C1 counterexample: in the public-folder scenario the scanner lists
`public/nested/b.html` among its files, yet the whole glob list is the single
`*` entry at the base, which does not match that path — so not every listed
file is matched by an emitted glob entry. -/
theorem c1_counterexample :
    getGlobs demoPublicRoot demoPublicAllowed = [{ base := [], pattern := GlobPattern.star }]
    ∧ ["public", "nested", "b.html"] ∈ (scanSources ⟨[], [], []⟩ demoPublicItems).files
    ∧ matchesEntry { base := [], pattern := GlobPattern.star }
        ["public", "nested", "b.html"] = false := by
  exact ⟨by decide, by decide, by decide⟩

set_option maxRecDepth 400000 in
/-- C1 witness: a file below a deep-globable directory is matched by an
emitted entry. -/
theorem c1_witness :
    ∃ g, g ∈ getGlobs demoSrcRoot demoSrcAllowed
      ∧ matchesEntry g ["src", "a.html"] = true :=
  c1_coverage.1 demoSrcRoot demoSrcAllowed ["src", "a.html"]
    (Or.inr (Or.inl ⟨["src"], by decide, by decide, by decide, by decide⟩))

/-! ## Glob shapes and forced-static subtrees (claim C2) -/

/-- C2 (amended): every entry `get_globs()` returns is the `*` entry at the
base, a shallow `*/*.{…}` entry, or a deep `**/*.{…}` entry — never a literal
per-file entry — and no entry's base lies in a forced-static (`public`)
subtree: forced-static directories and their descendants yield no glob
entries at all. -/
theorem c2_glob_shapes (root : FSEntry) (allowed : List Path) (g : GlobEntry)
    (hg : g ∈ getGlobs root allowed) :
    ((g.base = [] ∧ renderPattern g.pattern = "*")
      ∨ renderPattern g.pattern = "*/*." ++ "\x7b" ++ extensionList ++ "\x7d"
      ∨ renderPattern g.pattern = "**/*." ++ "\x7b" ++ extensionList ++ "\x7d")
    ∧ g.base.head? ≠ some "public" := by
  obtain ⟨hdeepOK, hshallowOK, _, _⟩ := resolveState_ok root allowed
  rcases List.mem_cons.mp hg with rfl | hg2
  · exact ⟨Or.inl ⟨rfl, rfl⟩, by simp⟩
  · unfold resolveGlobs at hg2
    rcases List.mem_append.mp hg2 with hsh | hdp
    · obtain ⟨b, hb, rfl⟩ := List.mem_map.mp hsh
      exact ⟨Or.inr (Or.inl rfl), (hshallowOK b hb).2⟩
    · obtain ⟨b, hb, rfl⟩ := List.mem_map.mp hdp
      exact ⟨Or.inr (Or.inr rfl), (hdeepOK b hb).2⟩

/-- C2 counterexample: `public` is marked forced-static and `public/a.html`
is an admitted, listed file, yet the emitted glob list is just the `*` entry —
no per-file entry is emitted for the forced-static subtree. -/
theorem c2_counterexample :
    getGlobs demoPublicRoot demoPublicAllowed = [{ base := [], pattern := GlobPattern.star }]
    ∧ ["public"] ∈ (resolveState demoPublicRoot demoPublicAllowed).forcedStatic
    ∧ ["public", "a.html"] ∈ (scanSources ⟨[], [], []⟩ demoPublicItems).files := by
  exact ⟨by decide, by decide, by decide⟩

/-- C2 witness: the concrete public-scenario glob list consists of allowed
shapes with no base inside the `public` subtree. -/
theorem c2_witness :
    ((({ base := [], pattern := GlobPattern.star } : GlobEntry).base = []
        ∧ renderPattern ({ base := [], pattern := GlobPattern.star } : GlobEntry).pattern = "*")
      ∨ renderPattern ({ base := [], pattern := GlobPattern.star } : GlobEntry).pattern
          = "*/*." ++ "\x7b" ++ extensionList ++ "\x7d"
      ∨ renderPattern ({ base := [], pattern := GlobPattern.star } : GlobEntry).pattern
          = "**/*." ++ "\x7b" ++ extensionList ++ "\x7d")
    ∧ (({ base := [], pattern := GlobPattern.star } : GlobEntry)).base.head? ≠ some "public" :=
  c2_glob_shapes demoPublicRoot demoPublicAllowed
    { base := [], pattern := GlobPattern.star } (by decide)

/-! ## Extension lists (claim C3) -/

set_option maxRecDepth 1000000 in
/-- C3: every deep and shallow glob entry carries the same brace list: the
built-in known-extension set, deduplicated, sorted alphabetically and joined
with commas — independent of the scanned tree and of the walker's admitted
set (the extension-recording block is commented out in the source, so nothing
observed is ever added); the built-in fixture is itself already sorted, so the
emitted list is exactly the fixture joined with commas. -/
theorem c3_extension_list :
    (∀ (root : FSEntry) (allowed : List Path), ∀ g ∈ resolveGlobs root allowed,
        g.pattern = GlobPattern.shallowP extensionList
        ∨ g.pattern = GlobPattern.deepP extensionList)
    ∧ extensionList = String.intercalate "," knownExtensions
    ∧ sortStrings knownExtensions.dedup = knownExtensions := by
  refine ⟨?_, by decide, by decide⟩
  intro root allowed g hg
  unfold resolveGlobs at hg
  rcases List.mem_append.mp hg with h | h
  · obtain ⟨b, _, rfl⟩ := List.mem_map.mp h
    exact Or.inl rfl
  · obtain ⟨b, _, rfl⟩ := List.mem_map.mp h
    exact Or.inr rfl

set_option maxRecDepth 400000 in
/-- C3 witness: the concrete deep entry emitted for `src` carries the
extension list. -/
theorem c3_witness :
    ({ base := ["src"], pattern := GlobPattern.deepP extensionList } : GlobEntry).pattern
        = GlobPattern.shallowP extensionList
    ∨ ({ base := ["src"], pattern := GlobPattern.deepP extensionList } : GlobEntry).pattern
        = GlobPattern.deepP extensionList :=
  c3_extension_list.1 demoSrcRoot demoSrcAllowed
    { base := ["src"], pattern := GlobPattern.deepP extensionList } (by decide)

/-! ## Parent demotion (claim C4) -/

/-- C4, evaluated at the failing inputs. In `demoC4Root`, the directory
`r/p` is classified deep-globable (the re-scan of the demoted `r` promotes
it), it has the gitignored direct subdirectory `r/p/d`, and it is still
deep-globable — not shallow-globable — when `resolve()` completes, so a deep
glob at `r/p` covers the ignored subtree. In `demoDRoot` — the `nested-d`
subtree of the repository's own test
`it_should_ignore_and_expand_nested_ignored_folders` — the code classifies
`nested-d/very` deep-globable and `nested-d/very/deeply/nested/directory` not
deep-globable, while that test asserts the opposite
(`nested-d/very/*/*.{…}` shallow and `nested-d/very/deeply/nested/directory/**/*.{…}`
deep). -/
theorem c4_demotion_divergence :
    (["r", "p"] ∈ (resolveState demoC4Root demoC4Allowed).deep
      ∧ ["r", "p"] ∉ (resolveState demoC4Root demoC4Allowed).shallow
      ∧ ["r", "p", "d"] ∉ demoC4Allowed)
    ∧ (["nested-d", "very"] ∈ (resolveState demoDRoot demoDAllowed).deep
      ∧ ["nested-d", "very"] ∉ (resolveState demoDRoot demoDAllowed).shallow
      ∧ ["nested-d", "very", "deeply", "nested", "directory"]
          ∉ (resolveState demoDRoot demoDAllowed).deep
      ∧ ["nested-d", "very", "deeply", "nested", "deep"] ∉ demoDAllowed) := by
  exact ⟨⟨by decide, by decide, by decide⟩, by decide, by decide, by decide, by decide⟩

end TailwindOxide
